import Mathlib

/-!
The TLS front end of shrpx (`src/shrpx_ssl.cc`).

A shallow embedding of the hostname matcher `tls_hostname_match`, the protocol preference
codec (`set_npn_prefs`, `next_proto_cb`, `select_next_proto_cb`) and the server-role
context factory `create_ssl_context`, followed by the properties proved about them.

C strings are lists of characters (hostnames) or of byte values (protocol identifiers),
the terminating NUL left implicit; a pointer into a string or a buffer is an offset.
-/

namespace shrpx

namespace util

/-- Modelled from the spec: the ASCII lower-casing behind the case-insensitive comparisons
of `util.h` (that header is not among the sources): `A`..`Z` go to `a`..`z`, every other
character stays. -/
def lowcase (c : Char) : Char :=
  if 65 ≤ c.toNat ∧ c.toNat ≤ 90 then Char.ofNat (c.toNat + 32) else c

/-- Modelled from the spec: `util::strieq` of `util.h`, case-insensitive exact equality
of two strings. -/
def strieq : List Char → List Char → Bool
  | [], [] => true
  | a :: as, b :: bs => lowcase a == lowcase b && strieq as bs
  | _, _ => false

/-- Modelled from the spec: `util::istartsWith` of `util.h`, for both of its forms (two
strings, two iterator ranges): the first text starts with the second, case ignored. -/
def istartsWith : List Char → List Char → Bool
  | _, [] => true
  | [], _ :: _ => false
  | a :: as, b :: bs => lowcase a == lowcase b && istartsWith as bs

/-- Modelled from the spec: `util::iendsWith` of `util.h` on two iterator ranges: the
first text ends with the second, case ignored. -/
def iendsWith (a b : List Char) : Bool :=
  if a.length < b.length then false else strieq (a.drop (a.length - b.length)) b

end util

namespace ssl

/-- C `strchr`: the offset of the first occurrence of `c` in `s`, `none` for a null
result. -/
def strchr : List Char → Char → Option Nat
  | [], _ => none
  | x :: xs, c => if x = c then some 0 else (strchr xs c).map (· + 1)

def tls_hostname_match (pattern hostname : List Char) : Bool :=
  match strchr pattern '*' with
  | none => util.strieq pattern hostname
  | some ptWildcard =>
    match strchr pattern '.' with
    | none => util.strieq pattern hostname
    | some ptLeftLabelEnd =>
      if (strchr (pattern.drop (ptLeftLabelEnd + 1)) '.').isNone
          ∨ ptLeftLabelEnd < ptWildcard
          ∨ util.istartsWith pattern "xn--".toList then
        util.strieq pattern hostname
      else
        match strchr hostname '.' with
        | none => false
        | some hnLeftLabelEnd =>
          if !util.strieq (pattern.drop ptLeftLabelEnd) (hostname.drop hnLeftLabelEnd) then
            false
          else if hnLeftLabelEnd < ptLeftLabelEnd then
            false
          else
            util.istartsWith (hostname.take hnLeftLabelEnd) (pattern.take ptWildcard) &&
            util.iendsWith (hostname.take hnLeftLabelEnd)
              ((pattern.take ptLeftLabelEnd).drop (ptWildcard + 1))

/-- Memory seen through an `unsigned char*`: the byte stored at each offset from it. -/
abbrev Mem := Nat → Nat

/-- C `strlen` on a character array: the number of bytes before the first NUL (the
terminator follows the last element of a NUL-free list). -/
def strlen (s : List Nat) : Nat := (s.takeWhile (· ≠ 0)).length

/-- Store of one byte, `ptr[i] = v`. -/
def store (m : Mem) (i v : Nat) : Mem := fun j => if j = i then v else m j

/-- C `memcpy(dst, src, n)` with `dst` an offset into the memory. -/
def memcpy (m : Mem) (dst : Nat) (src : List Nat) (n : Nat) : Mem :=
  fun j => if dst ≤ j ∧ j < dst + n then src.getD (j - dst) 0 else m j

/-- Loop of `set_npn_prefs` over the entries still to write: the memory and the offset
`ptr` at its end. The length byte is `strlen` cut to an `unsigned char`. -/
def set_npn_prefs_loop (m : Mem) (ptr : Nat) : List (List Nat) → Mem × Nat
  | [] => (m, ptr)
  | p :: ps =>
    let m1 := store m ptr (strlen p % 256)
    let m2 := memcpy m1 (ptr + 1) p (m1 ptr)
    set_npn_prefs_loop m2 (ptr + (m2 ptr + 1)) ps

def set_npn_prefs (out : Mem) (protos : List (List Nat)) : Mem :=
  (set_npn_prefs_loop out 0 protos).1

/-- The `n` bytes found at offset `off`. -/
def readBuf (m : Mem) (off n : Nat) : List Nat := (List.range n).map (fun i => m (off + i))

/-- The bytes of an ASCII string literal. -/
def cstr (s : String) : List Nat := s.toList.map Char.toNat

/-- Status with which a TLS extension callback reports success (OpenSSL header value). -/
def SSL_TLSEXT_ERR_OK : Int := 0

/-- The pair `std::pair<unsigned char*, size_t>`: a pointer, held as an offset from
`proto_list`, and a length. -/
structure NextProto where
  first : Nat
  second : Nat
deriving DecidableEq

/-- The value of `sizeof(proto_list)` for `unsigned char proto_list[23]`. -/
def proto_list_size : Nat := 23

/-- The file-scope variables `proto_list` and `next_proto`; `proto_list` is the memory
from its first byte on, of which the array owns the first `proto_list_size` bytes. -/
structure Globals where
  proto_list : Mem
  next_proto : NextProto

/-- What `next_proto_cb` hands back: `*data`, `*len` and the return value. -/
structure NextProtoResult where
  data : Nat
  len : Nat
  ret : Int
deriving DecidableEq

/-- The advertise hook; `arg` is the pair the hook was registered with. -/
def next_proto_cb (arg : NextProto) : NextProtoResult :=
  { data := arg.first, len := arg.second, ret := SSL_TLSEXT_ERR_OK }

/-- The fields of the configuration that `create_ssl_context` reads. -/
structure Config where
  ciphers : Option String
  private_key_file : String
  cert_file : String
  verify_client : Bool

/-- What the TLS library calls made by `create_ssl_context` report: whether `SSL_CTX_new`
gave a context, and the return values of `SSL_CTX_set_cipher_list`,
`SSL_CTX_use_PrivateKey_file`, `SSL_CTX_use_certificate_chain_file` and
`SSL_CTX_check_private_key`. -/
structure TlsLib where
  ctx_new_ok : Bool
  set_cipher_list : Int
  use_PrivateKey_file : Int
  use_certificate_chain_file : Int
  check_private_key : Int

/-- The settings `create_ssl_context` leaves in the context it returns. -/
structure SSL_CTX where
  cipher_list : Option String
  verify_peer : Bool
  next_protos_advertised : Bool
deriving DecidableEq

/-- The list `protos` of `create_ssl_context`. -/
def protos : List (List Nat) := [cstr "spdy/3", cstr "spdy/2", cstr "http/1.1"]

/-- Server-role construction over the given library results; `none` is `DIE()`, the
process ends and no context is returned. -/
def create_ssl_context (cfg : Config) (lib : TlsLib) (g : Globals) :
    Option (SSL_CTX × Globals) :=
  if !lib.ctx_new_ok then none
  else if cfg.ciphers.isSome && lib.set_cipher_list == 0 then none
  else if lib.use_PrivateKey_file != 1 then none
  else if lib.use_certificate_chain_file != 1 then none
  else if lib.check_private_key != 1 then none
  else
    let proto_list := set_npn_prefs g.proto_list protos
    let next_proto : NextProto := { first := 0, second := proto_list_size }
    some ({ cipher_list := cfg.ciphers, verify_peer := cfg.verify_client,
            next_protos_advertised := true },
          { proto_list := proto_list, next_proto := next_proto })

/-- What `select_next_proto_cb` leaves behind: the identifier `*out` of `*outlen` bytes
(`none` when nothing was stored) and the return value. -/
structure SelectResult where
  out : Option (List Nat)
  ret : Int
deriving DecidableEq

/-- The select hook. The library routine `spdylay_select_next_protocol` is a parameter:
on the peer buffer it gives its return value and the identifier it stored, if any. -/
def select_next_proto_cb (spdylay_select_next_protocol : List Nat → Int × Option (List Nat))
    (inp : List Nat) : SelectResult :=
  let r := spdylay_select_next_protocol inp
  if r.1 ≤ 0 then
    { out := some ((cstr "spdy/3").take 6), ret := SSL_TLSEXT_ERR_OK }
  else
    { out := r.2, ret := SSL_TLSEXT_ERR_OK }

end ssl

/-! ## Notions of the specification -/

/-- ASCII case-insensitive equality of two whole strings. -/
@[reducible] def CaseInsensitiveEq (a b : List Char) : Prop :=
  a.map Char.toLower = b.map Char.toLower

/-- The string `a` begins with `b`, letter case ignored. -/
@[reducible] def IStartsWith (a b : List Char) : Prop :=
  CaseInsensitiveEq (a.take b.length) b

/-- The string `a` ends with `b`, letter case ignored. -/
@[reducible] def IEndsWith (a b : List Char) : Prop :=
  CaseInsensitiveEq (a.drop (a.length - b.length)) b

/-- The length-prefixed form of a protocol list: for each identifier in order, one byte
holding its length, then its bytes. -/
def npnEncoding : List (List Nat) → List Nat
  | [] => []
  | p :: ps => (p.length :: p) ++ npnEncoding ps

/-- Total size of the length-prefixed form: one length byte plus the bytes, per entry. -/
def encodedSize (ids : List (List Nat)) : Nat := (ids.map (fun p => p.length + 1)).sum

/-- Modelled from the spec: the decoder of a length-prefixed protocol list (it lives in
the TLS library, not in the sources). It reads consecutive (length byte, that many bytes)
tuples and rejects a length byte that would read past the buffer end. The first argument
bounds the number of tuples read. -/
def decodeFuel : Nat → List Nat → Option (List (List Nat))
  | _, [] => some []
  | 0, _ :: _ => none
  | fuel + 1, n :: rest =>
    if n ≤ rest.length then
      (decodeFuel fuel (rest.drop n)).map (fun ps => rest.take n :: ps)
    else none

/-- Modelled from the spec: `decode` of the protocol preference codec, with one unit of
fuel per byte of the buffer. -/
def decode (buf : List Nat) : Option (List (List Nat)) := decodeFuel buf.length buf

/-- Modelled from the spec: the identifiers a peer buffer offers, none when the buffer is
rejected by `decode`. -/
def peerIdentifiers (inp : List Nat) : List (List Nat) := (decode inp).getD []

/-- Modelled from the spec: `spdylay_select_next_protocol`, the selection routine of the
protocol library (not among the sources). It decodes the peer list and selects the first
entry of the local preference list that the peer offers too; its result is positive with
the identifier stored on an overlap and non-positive with nothing stored otherwise. -/
def spdylay_select_next_protocol (localPrefs : List (List Nat)) (inp : List Nat) :
    Int × Option (List Nat) :=
  match localPrefs.find? (fun p => decide (p ∈ peerIdentifiers inp)) with
  | some p => (1, some p)
  | none => (-1, none)

open util ssl

/-! ## Lemmas on the modelled helpers -/

theorem lowcase_eq_toLower (c : Char) : lowcase c = c.toLower := rfl

theorem lowcase_upper_ne_dot (n : Nat) (h1 : 65 ≤ n) (h2 : n ≤ 90) :
    Char.ofNat (n + 32) ≠ '.' := by
  interval_cases n <;> decide

theorem lowcase_dot (c : Char) : lowcase c = '.' ↔ c = '.' := by
  unfold lowcase
  split
  · rename_i h
    constructor
    · intro h2
      exact absurd h2 (lowcase_upper_ne_dot _ h.1 h.2)
    · intro h2; subst h2; simp at h
  · rfl

theorem strieq_iff (a b : List Char) :
    strieq a b = true ↔ CaseInsensitiveEq a b := by
  induction a generalizing b with
  | nil => cases b <;> simp [strieq, CaseInsensitiveEq]
  | cons x xs ih =>
    cases b with
    | nil => simp [strieq, CaseInsensitiveEq]
    | cons y ys =>
      simp only [strieq, Bool.and_eq_true, beq_iff_eq, ih, CaseInsensitiveEq, List.map_cons,
        List.cons.injEq, lowcase_eq_toLower]

theorem istartsWith_iff (a b : List Char) :
    istartsWith a b = true ↔ IStartsWith a b := by
  induction b generalizing a with
  | nil => simp [istartsWith, IStartsWith, CaseInsensitiveEq]
  | cons y ys ih =>
    cases a with
    | nil => simp [istartsWith, IStartsWith, CaseInsensitiveEq]
    | cons x xs =>
      have := ih xs
      simp only [IStartsWith, CaseInsensitiveEq] at this
      simp only [istartsWith, Bool.and_eq_true, beq_iff_eq, this, IStartsWith, CaseInsensitiveEq,
        List.length_cons, List.take_succ_cons, List.map_cons, List.cons.injEq, lowcase_eq_toLower]

theorem caseInsensitiveEq_length {a b : List Char} (h : CaseInsensitiveEq a b) :
    a.length = b.length := by
  have := congrArg List.length h
  simpa using this

theorem iendsWith_iff (a b : List Char) :
    iendsWith a b = true ↔ IEndsWith a b := by
  unfold iendsWith IEndsWith
  split
  · rename_i h
    have h0 : a.length - b.length = 0 := by omega
    rw [h0, List.drop_zero]
    constructor
    · intro hc; cases hc
    · intro hc
      have := caseInsensitiveEq_length hc
      omega
  · exact strieq_iff _ _

theorem strchr_eq_none_iff (s : List Char) (c : Char) : strchr s c = none ↔ c ∉ s := by
  induction s with
  | nil => simp [strchr]
  | cons x xs ih =>
    by_cases h : x = c
    · simp [strchr, h]
    · have h2 : ¬ c = x := fun e => h e.symm
      simp [strchr, h, h2, ih]

theorem strchr_append (pre rest : List Char) (c : Char) (h : c ∉ pre) :
    strchr (pre ++ c :: rest) c = some pre.length := by
  induction pre with
  | nil => simp [strchr]
  | cons x xs ih =>
    have hx : ¬ x = c := fun e => h (by simp [e])
    have hxs : c ∉ xs := fun e => h (by simp [e])
    simp [strchr, hx, ih hxs]

theorem strchr_some {s : List Char} {c : Char} {i : Nat} (h : strchr s c = some i) :
    c ∉ s.take i ∧ s.drop i = c :: s.drop (i + 1) := by
  induction s generalizing i with
  | nil => simp [strchr] at h
  | cons x xs ih =>
    by_cases hx : x = c
    · simp [strchr, hx] at h
      subst h; simp [hx]
    · simp only [strchr, hx, if_false, Option.map_eq_some'] at h
      obtain ⟨j, hj, rfl⟩ := h
      have := ih hj
      have hx2 : ¬ c = x := fun e => hx e.symm
      simp [this.1, this.2, hx2]

theorem strchr_some_split {s : List Char} {c : Char} {i : Nat} (h : strchr s c = some i) :
    s = s.take i ++ c :: s.drop (i + 1) ∧ (s.take i).length = i := by
  have h2 := (strchr_some h).2
  have h3 : s = s.take i ++ s.drop i := (List.take_append_drop i s).symm
  have hlen : i < s.length := by
    by_contra hc
    have : s.drop i = [] := List.drop_of_length_le (by omega)
    rw [this] at h2
    cases h2
  constructor
  · rw [← h2]; exact h3
  · simp; omega

theorem strchr_eq_indexOf {s : List Char} {c : Char} (h : c ∈ s) :
    strchr s c = some (s.indexOf c) := by
  induction s with
  | nil => simp at h
  | cons x xs ih =>
    by_cases hx : x = c
    · simp [strchr, hx]
    · have hc : c ∈ xs := by
        rcases List.mem_cons.1 h with e | e
        · exact absurd e.symm hx
        · exact e
      have hx2 : ¬ c = x := fun e => hx e.symm
      simp [strchr, hx, ih hc, List.indexOf_cons, hx2]


/-- C1: when the pattern holds no `*`, `tls_hostname_match` is true exactly when the
pattern and the hostname are equal as whole strings with ASCII letter case ignored. -/
theorem tls_hostname_match_no_wildcard (pattern hostname : List Char)
    (hstar : '*' ∉ pattern) :
    tls_hostname_match pattern hostname = true ↔ CaseInsensitiveEq pattern hostname := by
  have h := (strchr_eq_none_iff pattern '*').2 hstar
  simp only [tls_hostname_match, h]
  exact strieq_iff pattern hostname

theorem tls_hostname_match_no_wildcard_witness :
    '*' ∉ "Example.COM".toList ∧
    (tls_hostname_match "Example.COM".toList "example.com".toList = true ↔
      CaseInsensitiveEq "Example.COM".toList "example.com".toList) :=
  ⟨by decide, tls_hostname_match_no_wildcard _ _ (by decide)⟩

/-- Unfolding of `tls_hostname_match` on a pattern for which the wildcard is enabled. -/
theorem tls_hostname_match_enabled {pattern : List Char} {w e : Nat} (hostname : List Char)
    (hw : strchr pattern '*' = some w) (he : strchr pattern '.' = some e)
    (h2 : '.' ∈ pattern.drop (e + 1)) (hle : w ≤ e)
    (hxn : istartsWith pattern "xn--".toList = false) :
    tls_hostname_match pattern hostname = true ↔
      ∃ j, strchr hostname '.' = some j ∧
        CaseInsensitiveEq (pattern.drop e) (hostname.drop j) ∧ e ≤ j ∧
        IStartsWith (hostname.take j) (pattern.take w) ∧
        IEndsWith (hostname.take j) ((pattern.take e).drop (w + 1)) := by
  have h3 : (strchr (pattern.drop (e + 1)) '.').isNone = false := by
    cases hs : strchr (pattern.drop (e + 1)) '.' with
    | none => exact absurd h2 ((strchr_eq_none_iff _ _).1 hs)
    | some k => rfl
  have h4 : ¬ e < w := by omega
  simp only [tls_hostname_match, hw, he, h3, h4, hxn, Bool.false_eq_true, or_self, if_false]
  cases hj : strchr hostname '.' with
  | none => simp
  | some j =>
    simp only [Option.some.injEq, exists_eq_left']
    by_cases hs : strieq (pattern.drop e) (hostname.drop j) = true
    · by_cases hlt : j < e
      · simp [hs, hlt]
      · have : e ≤ j := by omega
        have hc := (strieq_iff _ _).1 hs
        simp only [hs, hlt, Bool.not_true, Bool.false_eq_true, if_false, Bool.and_eq_true,
          istartsWith_iff, iendsWith_iff, this, true_and]
        exact ⟨fun h => ⟨hc, h⟩, fun h => h.2⟩
    · have hs2 : ¬ CaseInsensitiveEq (pattern.drop e) (hostname.drop j) :=
        fun hc => hs ((strieq_iff _ _).2 hc)
      simp [hs, hs2]

/-- Unfolding of `tls_hostname_match` on a pattern for which the wildcard is disabled. -/
theorem tls_hostname_match_disabled {pattern : List Char} (hostname : List Char)
    (hdis : ∀ w e, strchr pattern '*' = some w → strchr pattern '.' = some e →
      '.' ∉ pattern.drop (e + 1) ∨ e < w ∨ istartsWith pattern "xn--".toList = true) :
    tls_hostname_match pattern hostname = strieq pattern hostname := by
  unfold tls_hostname_match
  cases hw : strchr pattern '*' with
  | none => rfl
  | some w =>
    cases he : strchr pattern '.' with
    | none => rfl
    | some e =>
      have := hdis w e hw he
      rw [← strchr_eq_none_iff] at this
      have h5 : (strchr (pattern.drop (e + 1)) '.').isNone = true ∨ e < w ∨
          istartsWith pattern "xn--".toList = true := by
        rcases this with h | h | h
        · left; rw [h]; rfl
        · right; left; exact h
        · right; right; exact h
      simp only [h5, if_true]


theorem count_dot_map_toLower (a : List Char) :
    (a.map Char.toLower).count '.' = a.count '.' := by
  induction a with
  | nil => rfl
  | cons x xs ih =>
    have h := lowcase_dot x
    rw [lowcase_eq_toLower] at h
    by_cases hx : x = '.'
    · have h2 := h.2 hx
      simp [List.count_cons, ih, hx, h2]
    · have h2 : ¬ x.toLower = '.' := fun e => hx (h.1 e)
      simp [List.count_cons, ih, hx, h2]

theorem caseInsensitiveEq_count_dot {a b : List Char} (h : CaseInsensitiveEq a b) :
    a.count '.' = b.count '.' := by
  rw [← count_dot_map_toLower a, ← count_dot_map_toLower b, h]

theorem strchr_count {s : List Char} {c : Char} {i : Nat} (h : strchr s c = some i) :
    s.count c = (s.drop i).count c ∧ s.count c = 1 + (s.drop (i + 1)).count c ∧
      s.length = i + (s.drop i).length := by
  have h1 := strchr_some h
  have h2 := strchr_some_split h
  have h3 : (s.take i).count c = 0 := List.count_eq_zero.2 h1.1
  have h4 : s.count c = (s.take i).count c + (s.drop i).count c := by
    rw [← List.count_append, List.take_append_drop]
  have h5 : s.length = (s.take i).length + (s.drop i).length := by
    rw [← List.length_append, List.take_append_drop]
  refine ⟨by omega, ?_, by omega⟩
  rw [h4, h3, h1.2, List.count_cons_self]; omega

theorem strchr_label {label hrest : List Char} (h1 : '.' ∉ label)
    (h2 : hrest.head? = some '.') : strchr (label ++ hrest) '.' = some label.length := by
  cases hrest with
  | nil => simp at h2
  | cons x t =>
    simp only [List.head?_cons, Option.some.injEq] at h2
    subst h2
    exact strchr_append label t '.' h1


theorem wildcard_pattern_shape (pre post r : List Char)
    (hpre_star : '*' ∉ pre) (hpre_dot : '.' ∉ pre) (hpost : '.' ∉ post) :
    let pattern := pre ++ '*' :: (post ++ '.' :: r)
    let e := pre.length + 1 + post.length
    strchr pattern '*' = some pre.length ∧ strchr pattern '.' = some e ∧
      pattern.drop (e + 1) = r ∧ pattern.drop e = '.' :: r ∧ pattern.take pre.length = pre ∧
      (pattern.take e).drop (pre.length + 1) = post := by
  intro pattern e
  have hp : pattern = (pre ++ '*' :: post) ++ '.' :: r := by simp [pattern]
  have hlen : (pre ++ '*' :: post).length = e := by simp [e]; omega
  have hnd : '.' ∉ pre ++ '*' :: post := by
    simp only [List.mem_append, List.mem_cons, not_or]
    exact ⟨hpre_dot, by decide, hpost⟩
  have he : strchr pattern '.' = some e := by
    rw [hp, ← hlen]; exact strchr_append _ _ _ hnd
  have hte : pattern.take e = pre ++ '*' :: post := by
    rw [hp, ← hlen, List.take_left]
  refine ⟨strchr_append pre _ '*' hpre_star, he, ?_, ?_, ?_, ?_⟩
  · have h3 : pre ++ '*' :: post ++ '.' :: r = (pre ++ '*' :: post ++ ['.']) ++ r := by simp
    have h4 : (pre ++ '*' :: post ++ ['.']).length = e + 1 := by
      rw [List.length_append, hlen]; rfl
    rw [hp, h3, ← h4, List.drop_left]
  · rw [hp, ← hlen, List.drop_left]
  · exact List.take_left _ _
  · rw [hte]
    have : pre ++ '*' :: post = (pre ++ ['*']) ++ post := by simp
    rw [this]
    have h2 : (pre ++ ['*']).length = pre.length + 1 := by simp
    rw [← h2, List.drop_left]


/-- C2 (amended): for a pattern `pre ++ "*" ++ post ++ rest` whose `pre` holds neither `*`
nor `.`, whose `post` holds no `.`, whose `rest` begins with `.` and holds a further `.`,
and which does not begin with `xn--` in any letter case, `tls_hostname_match` is true exactly
when the hostname splits as `label ++ hrest` with `label` free of `.`, `hrest` beginning with
`.` and equal to `rest` up to letter case, `label` at least `|pre| + 1 + |post|` long,
beginning with `pre` and ending with `post` up to letter case. In particular
`f*.example.com` matches `foo.example.com` and does not match `bar.example.com`. -/
theorem tls_hostname_match_wildcard :
    (∀ pre post rest h : List Char,
      '*' ∉ pre → '.' ∉ pre → '.' ∉ post → (∃ r, rest = '.' :: r ∧ '.' ∈ r) →
      ¬ IStartsWith (pre ++ '*' :: (post ++ rest)) "xn--".toList →
      (tls_hostname_match (pre ++ '*' :: (post ++ rest)) h = true ↔
        ∃ label hrest, h = label ++ hrest ∧ '.' ∉ label ∧ hrest.head? = some '.' ∧
          CaseInsensitiveEq hrest rest ∧ pre.length + 1 + post.length ≤ label.length ∧
          IStartsWith label pre ∧ IEndsWith label post)) ∧
    tls_hostname_match "f*.example.com".toList "foo.example.com".toList = true ∧
    tls_hostname_match "f*.example.com".toList "bar.example.com".toList = false := by
  refine ⟨?_, by decide, by decide⟩
  intro pre post rest h hpre_star hpre_dot hpost hrest hxn
  obtain ⟨r, rfl, hr⟩ := hrest
  obtain ⟨hw, he, hd1, hd, htk, hmid⟩ := wildcard_pattern_shape pre post r hpre_star hpre_dot hpost
  have hxn2 : istartsWith (pre ++ '*' :: (post ++ '.' :: r)) "xn--".toList = false := by
    cases hb : istartsWith (pre ++ '*' :: (post ++ '.' :: r)) "xn--".toList with
    | false => rfl
    | true => exact absurd ((istartsWith_iff _ _).1 hb) hxn
  rw [tls_hostname_match_enabled h hw he (by rw [hd1]; exact hr) (by omega) hxn2]
  rw [hd, htk, hmid]
  constructor
  · rintro ⟨j, hj, hci, hle, hs, hend⟩
    have h1 := strchr_some hj
    have h2 := strchr_some_split hj
    refine ⟨h.take j, h.drop j, (List.take_append_drop j h).symm, h1.1, ?_, ?_, ?_, hs, hend⟩
    · rw [h1.2]; rfl
    · exact hci.symm
    · rw [h2.2]; exact hle
  · rintro ⟨label, hrest, rfl, hl, hhead, hci, hlen, hs, hend⟩
    refine ⟨label.length, strchr_label hl hhead, ?_, hlen, ?_, ?_⟩
    · rw [List.drop_left]; exact hci.symm
    · rw [List.take_left]; exact hs
    · rw [List.take_left]; exact hend

theorem tls_hostname_match_wildcard_witness :
    tls_hostname_match "f*o.Example.com".toList "FXXo.eXample.COM".toList = true :=
  (tls_hostname_match_wildcard.1 "f".toList "o".toList ".Example.com".toList
    "FXXo.eXample.COM".toList (by decide) (by decide) (by decide)
    ⟨"Example.com".toList, rfl, by decide⟩ (by decide)).2
    ⟨"FXXo".toList, ".eXample.COM".toList, rfl, by decide, rfl, by decide, by decide,
      by decide, by decide⟩

/-- C2 as stated fails: the pattern `XN--*.example.com` does not begin with the four
characters `xn--` and has the wildcard shape, the hostname `xn--abc.example.com` splits
as the claim requires, and yet `tls_hostname_match` answers false, because the source
tests the `xn--` prefix with letter case ignored. -/
theorem tls_hostname_match_wildcard_counterexample :
    ('*' ∉ "XN--".toList ∧ '.' ∉ "XN--".toList ∧ '.' ∉ ([] : List Char) ∧
      (∃ r, ".example.com".toList = '.' :: r ∧ '.' ∈ r) ∧
      ¬ ("xn--".toList <+: "XN--".toList ++ '*' :: ([] ++ ".example.com".toList))) ∧
    (∃ label hrest, "xn--abc.example.com".toList = label ++ hrest ∧ '.' ∉ label ∧
      hrest.head? = some '.' ∧ CaseInsensitiveEq hrest ".example.com".toList ∧
      "XN--".toList.length + 1 + ([] : List Char).length ≤ label.length ∧
      IStartsWith label "XN--".toList ∧ IEndsWith label []) ∧
    tls_hostname_match ("XN--".toList ++ '*' :: ([] ++ ".example.com".toList))
      "xn--abc.example.com".toList = false := by
  refine ⟨⟨by decide, by decide, by decide, ⟨"example.com".toList, rfl, by decide⟩, by decide⟩,
    ⟨"xn--abc".toList, ".example.com".toList, rfl, by decide, rfl, by decide, by decide,
      by decide, by decide⟩, by decide⟩


/-- C3: for a pattern that holds `*` but fails a wildcard-enabling condition (no `.`, or
no second `.` after its first, or its first `*` after its first `.`, or it begins with the
four characters `xn--`), `tls_hostname_match` is true exactly when pattern and hostname are
equal as whole strings with letter case ignored, the `*` being a literal. In particular
`xn--*.example.com` does not match `xn--abc.example.com`. -/
theorem tls_hostname_match_wildcard_disabled :
    (∀ pattern hostname : List Char, '*' ∈ pattern →
      ('.' ∉ pattern ∨ pattern.count '.' = 1 ∨
        pattern.indexOf '.' < pattern.indexOf '*' ∨ "xn--".toList <+: pattern) →
      (tls_hostname_match pattern hostname = true ↔ CaseInsensitiveEq pattern hostname)) ∧
    tls_hostname_match "xn--*.example.com".toList "xn--abc.example.com".toList = false := by
  refine ⟨?_, by decide⟩
  intro pattern hostname hstar hfail
  rw [tls_hostname_match_disabled hostname, strieq_iff]
  intro w e hw he
  have hdot : '.' ∈ pattern := by
    by_contra hc
    rw [(strchr_eq_none_iff _ _).2 hc] at he
    cases he
  rcases hfail with h | h | h | h
  · exact absurd hdot h
  · left
    have := (strchr_count he).2.1
    exact List.count_eq_zero.1 (by omega)
  · right; left
    rw [strchr_eq_indexOf hdot] at he
    rw [strchr_eq_indexOf hstar] at hw
    cases he; cases hw
    exact h
  · right; right
    obtain ⟨t, rfl⟩ := h
    rw [istartsWith_iff]
    unfold IStartsWith
    rw [List.take_left]

theorem tls_hostname_match_wildcard_disabled_witness :
    tls_hostname_match "*.com".toList "*.COM".toList = true :=
  (tls_hostname_match_wildcard_disabled.1 "*.com".toList "*.COM".toList (by decide)
    (Or.inr (Or.inl (by decide)))).2 (by decide)

/-- C4: whenever `tls_hostname_match` answers true, the hostname holds exactly as many `.`
as the pattern and is at least as long as the pattern, so a `*` stands for one or more
characters of a single label. In particular `*.example.com` matches `foo.example.com`,
and matches neither `example.com` nor `foo.bar.example.com`. -/
theorem tls_hostname_match_single_label :
    (∀ pattern hostname : List Char, tls_hostname_match pattern hostname = true →
      hostname.count '.' = pattern.count '.' ∧ pattern.length ≤ hostname.length) ∧
    tls_hostname_match "*.example.com".toList "foo.example.com".toList = true ∧
    tls_hostname_match "*.example.com".toList "example.com".toList = false ∧
    tls_hostname_match "*.example.com".toList "foo.bar.example.com".toList = false := by
  refine ⟨?_, by decide, by decide, by decide⟩
  intro pattern hostname hm
  by_cases hen : ∃ w e, strchr pattern '*' = some w ∧ strchr pattern '.' = some e ∧
      '.' ∈ pattern.drop (e + 1) ∧ w ≤ e ∧ istartsWith pattern "xn--".toList = false
  · obtain ⟨w, e, hw, he, h2, hle, hxn⟩ := hen
    obtain ⟨j, hj, hci, hej, _, _⟩ := (tls_hostname_match_enabled hostname hw he h2 hle hxn).1 hm
    have hp := strchr_count he
    have hh := strchr_count hj
    have hc := caseInsensitiveEq_count_dot hci
    have hl := caseInsensitiveEq_length hci
    omega
  · have hdis : ∀ w e, strchr pattern '*' = some w → strchr pattern '.' = some e →
        '.' ∉ pattern.drop (e + 1) ∨ e < w ∨ istartsWith pattern "xn--".toList = true := by
      intro w e hw he
      by_contra hc
      push_neg at hc
      exact hen ⟨w, e, hw, he, hc.1, hc.2.1, by simpa using hc.2.2⟩
    rw [tls_hostname_match_disabled hostname hdis, strieq_iff] at hm
    have hc := caseInsensitiveEq_count_dot hm
    have hl := caseInsensitiveEq_length hm
    omega

theorem tls_hostname_match_single_label_witness :
    ("foo.example.com".toList.count '.' = "*.example.com".toList.count '.' ∧
      "*.example.com".toList.length ≤ "foo.example.com".toList.length) :=
  tls_hostname_match_single_label.1 "*.example.com".toList "foo.example.com".toList (by decide)

/-! ## The protocol preference codec and the context factory -/

theorem strlen_of_nul_free {s : List Nat} (h : 0 ∉ s) : strlen s = s.length := by
  unfold strlen
  congr 1
  rw [List.takeWhile_eq_self_iff]
  intro x hx
  have : x ≠ 0 := fun e => h (e ▸ hx)
  simpa using this

theorem set_npn_prefs_loop_spec (ids : List (List Nat))
    (hvalid : ∀ p ∈ ids, 0 ∉ p ∧ p.length ≤ 255) (m : Mem) (ptr : Nat) :
    (set_npn_prefs_loop m ptr ids).2 = ptr + (npnEncoding ids).length ∧
    ∀ j, (set_npn_prefs_loop m ptr ids).1 j =
      if j < ptr then m j else (npnEncoding ids).getD (j - ptr) (m j) := by
  induction ids generalizing m ptr with
  | nil => simp [set_npn_prefs_loop, npnEncoding]
  | cons p ps ih =>
    have hp := hvalid p (by simp)
    have hps : ∀ q ∈ ps, 0 ∉ q ∧ q.length ≤ 255 := fun q hq => hvalid q (by simp [hq])
    have hlen : strlen p % 256 = p.length := by
      rw [strlen_of_nul_free hp.1]; omega
    have hm1 : store m ptr (strlen p % 256) ptr = p.length := by simp [store, hlen]
    have hm2 : memcpy (store m ptr (strlen p % 256)) (ptr + 1) p p.length ptr = p.length := by
      simp [memcpy, store, hlen]
    simp only [set_npn_prefs_loop, hm1, hm2]
    obtain ⟨ih1, ih2⟩ := ih hps (memcpy (store m ptr (strlen p % 256)) (ptr + 1) p p.length)
      (ptr + (p.length + 1))
    refine ⟨?_, ?_⟩
    · rw [ih1]; simp [npnEncoding]; omega
    · intro j
      rw [ih2 j]
      by_cases h1 : j < ptr
      · have : j < ptr + (p.length + 1) := by omega
        have h3 : ¬ j = ptr := by omega
        have h4 : ¬ (ptr + 1 ≤ j) := by omega
        simp [memcpy, store, h1, this, h3, h4]
      · by_cases h2 : j = ptr
        · subst h2
          simp [memcpy, store, hlen, npnEncoding]
        · by_cases h3 : j < ptr + (p.length + 1)
          · have h5 : ptr + 1 ≤ j ∧ j < ptr + 1 + p.length := by omega
            obtain ⟨k, rfl⟩ : ∃ k, j = ptr + 1 + k := ⟨j - (ptr + 1), by omega⟩
            have hk : k < p.length := by omega
            have e1 : ptr + 1 + k - ptr = k + 1 := by omega
            simp [memcpy, store, h1, h3, h5, npnEncoding, e1, List.getElem?_append_left hk,
              List.getElem?_eq_getElem hk]
          · have h4 : ¬ (j < ptr + 1 + p.length) := by omega
            have h6 : ¬ j = ptr := h2
            obtain ⟨k, rfl⟩ : ∃ k, j = ptr + (p.length + 1) + k := ⟨j - (ptr + (p.length + 1)), by omega⟩
            have e1 : ptr + (p.length + 1) + k - ptr = (p.length + k) + 1 := by omega
            have e2 : (p ++ npnEncoding ps)[p.length + k]? = (npnEncoding ps)[k]? := by
              rw [List.getElem?_append_right (by omega)]
              congr 1; omega
            simp [memcpy, store, h1, h3, h4, h6, npnEncoding, e1, e2]

theorem npnEncoding_length (ids : List (List Nat)) :
    (npnEncoding ids).length = encodedSize ids := by
  induction ids with
  | nil => rfl
  | cons p ps ih =>
    simp only [npnEncoding, List.length_append, List.length_cons, ih]
    simp only [encodedSize, List.map_cons, List.sum_cons]

theorem set_npn_prefs_spec (out : Mem) (ids : List (List Nat))
    (hvalid : ∀ p ∈ ids, 0 ∉ p ∧ p.length ≤ 255) (j : Nat) :
    set_npn_prefs out ids j = (npnEncoding ids).getD j (out j) := by
  have := (set_npn_prefs_loop_spec ids hvalid out 0).2 j
  simpa [set_npn_prefs] using this

theorem readBuf_set_npn_prefs (out : Mem) (ids : List (List Nat))
    (hvalid : ∀ p ∈ ids, 0 ∉ p ∧ p.length ≤ 255) :
    readBuf (set_npn_prefs out ids) 0 (encodedSize ids) = npnEncoding ids := by
  apply List.ext_getElem
  · simp [readBuf, npnEncoding_length]
  · intro i h1 h2
    simp [readBuf, set_npn_prefs_spec out ids hvalid, List.getElem?_eq_getElem h2]

theorem readBuf_take (m : Mem) (n cap : Nat) (h : n ≤ cap) :
    (readBuf m 0 cap).take n = readBuf m 0 n := by
  apply List.ext_getElem
  · simp [readBuf]; omega
  · intro i h1 h2
    simp [readBuf]

theorem decodeFuel_npnEncoding (ids : List (List Nat)) (fuel : Nat)
    (h : (npnEncoding ids).length ≤ fuel) :
    decodeFuel fuel (npnEncoding ids) = some ids := by
  induction ids generalizing fuel with
  | nil => cases fuel <;> simp [npnEncoding, decodeFuel]
  | cons p ps ih =>
    cases fuel with
    | zero => simp [npnEncoding] at h
    | succ f =>
      have hf : (npnEncoding ps).length ≤ f := by
        simp [npnEncoding] at h; omega
      simp [npnEncoding, decodeFuel, ih f hf]

theorem decode_npnEncoding (ids : List (List Nat)) :
    decode (npnEncoding ids) = some ids :=
  decodeFuel_npnEncoding ids _ (Nat.le_refl _)


theorem npnEncoding_eq_flatten (ids : List (List Nat)) :
    npnEncoding ids = (ids.map (fun p => p.length :: p)).flatten := by
  induction ids with
  | nil => rfl
  | cons p ps ih => simp [npnEncoding, ih]

/-- C5: for every ordered list of identifiers, each NUL-free and at most 255 bytes long,
`set_npn_prefs` leaves in the output buffer, from its first byte on, exactly the
concatenation in list order of (one length byte, the identifier's bytes); the write
offset ends at the sum of `length + 1` and no byte from that offset on is changed. -/
theorem set_npn_prefs_writes_encoding (out : Mem) (ids : List (List Nat))
    (hvalid : ∀ p ∈ ids, 0 ∉ p ∧ p.length ≤ 255) :
    readBuf (set_npn_prefs out ids) 0 (encodedSize ids) =
      (ids.map (fun p => p.length :: p)).flatten ∧
    (set_npn_prefs_loop out 0 ids).2 = (ids.map (fun p => p.length + 1)).sum ∧
    ∀ j, (ids.map (fun p => p.length + 1)).sum ≤ j → set_npn_prefs out ids j = out j := by
  refine ⟨?_, ?_, ?_⟩
  · rw [readBuf_set_npn_prefs out ids hvalid, npnEncoding_eq_flatten]
  · have := (set_npn_prefs_loop_spec ids hvalid out 0).1
    rw [this, npnEncoding_length]; simp [encodedSize]
  · intro j hj
    rw [set_npn_prefs_spec out ids hvalid j]
    have : (npnEncoding ids).length ≤ j := by rw [npnEncoding_length]; exact hj
    simp [List.getD, List.getElem?_eq_none this]

theorem set_npn_prefs_writes_encoding_witness :
    readBuf (set_npn_prefs (fun _ => 0) [cstr "h2", cstr "spdy/3"]) 0
        (encodedSize [cstr "h2", cstr "spdy/3"]) =
      ([cstr "h2", cstr "spdy/3"].map (fun p => p.length :: p)).flatten :=
  (set_npn_prefs_writes_encoding (fun _ => 0) [cstr "h2", cstr "spdy/3"] (by decide)).1


/-- C6: round trip. For every list of identifiers (each NUL-free, at most 255 bytes)
whose encoded size fits a buffer of `cap` bytes, decoding the encoded form that
`set_npn_prefs` leaves at the start of that buffer gives the list back; consequently two
such lists with the same encoded form are equal. The decoder rejects a length byte that
would read past the end of its buffer. -/
theorem npn_round_trip :
    (∀ (out : Mem) (ids : List (List Nat)) (cap : Nat),
      (∀ p ∈ ids, 0 ∉ p ∧ p.length ≤ 255) → encodedSize ids ≤ cap →
      decode ((readBuf (set_npn_prefs out ids) 0 cap).take (encodedSize ids)) = some ids) ∧
    (∀ (out1 out2 : Mem) (ids1 ids2 : List (List Nat)) (cap : Nat),
      (∀ p ∈ ids1, 0 ∉ p ∧ p.length ≤ 255) → (∀ p ∈ ids2, 0 ∉ p ∧ p.length ≤ 255) →
      encodedSize ids1 ≤ cap → encodedSize ids2 ≤ cap →
      (readBuf (set_npn_prefs out1 ids1) 0 cap).take (encodedSize ids1) =
        (readBuf (set_npn_prefs out2 ids2) 0 cap).take (encodedSize ids2) →
      ids1 = ids2) ∧
    (∀ (n : Nat) (rest : List Nat), rest.length < n → decode (n :: rest) = none) := by
  have key : ∀ (out : Mem) (ids : List (List Nat)) (cap : Nat),
      (∀ p ∈ ids, 0 ∉ p ∧ p.length ≤ 255) → encodedSize ids ≤ cap →
      (readBuf (set_npn_prefs out ids) 0 cap).take (encodedSize ids) = npnEncoding ids := by
    intro out ids cap hv hfit
    rw [readBuf_take _ _ _ hfit, readBuf_set_npn_prefs out ids hv]
  refine ⟨?_, ?_, ?_⟩
  · intro out ids cap hv hfit
    rw [key out ids cap hv hfit]
    exact decode_npnEncoding ids
  · intro out1 out2 ids1 ids2 cap hv1 hv2 hf1 hf2 heq
    rw [key out1 ids1 cap hv1 hf1, key out2 ids2 cap hv2 hf2] at heq
    have h1 := decode_npnEncoding ids1
    rw [heq, decode_npnEncoding ids2] at h1
    exact (Option.some.inj h1).symm
  · intro n rest hlt
    have : ¬ n ≤ rest.length := by omega
    simp [decode, decodeFuel, this]

theorem npn_round_trip_witness :
    decode ((readBuf (set_npn_prefs (fun _ => 255) [cstr "spdy/3", cstr "h2"]) 0 23).take
      (encodedSize [cstr "spdy/3", cstr "h2"])) = some [cstr "spdy/3", cstr "h2"] :=
  npn_round_trip.1 (fun _ => 255) [cstr "spdy/3", cstr "h2"] 23 (by decide) (by decide)

/-- C7: the encoded size of the reference list `spdy/3`, `spdy/2`, `http/1.1` is 23, the
capacity of `proto_list`; `set_npn_prefs` fixes each of the 23 bytes of the buffer whatever
it held before and changes no byte beyond them; and after `create_ssl_context` the advertise
hook `next_proto_cb` returns that buffer, 0x06 `spdy/3` 0x06 `spdy/2` 0x08 `http/1.1`, with
length 23 and status OK. -/
theorem proto_list_exactly_filled :
    encodedSize protos = 23 ∧ proto_list_size = 23 ∧
    (∀ m : Mem,
      readBuf (set_npn_prefs m protos) 0 proto_list_size =
        [6] ++ cstr "spdy/3" ++ [6] ++ cstr "spdy/2" ++ [8] ++ cstr "http/1.1" ∧
      ∀ j, proto_list_size ≤ j → set_npn_prefs m protos j = m j) ∧
    (∀ (cfg : Config) (lib : TlsLib) (g g2 : Globals) (ctx : SSL_CTX),
      create_ssl_context cfg lib g = some (ctx, g2) →
      (next_proto_cb g2.next_proto).ret = SSL_TLSEXT_ERR_OK ∧
      (next_proto_cb g2.next_proto).len = 23 ∧
      readBuf g2.proto_list (next_proto_cb g2.next_proto).data (next_proto_cb g2.next_proto).len =
        [6] ++ cstr "spdy/3" ++ [6] ++ cstr "spdy/2" ++ [8] ++ cstr "http/1.1" ∧
      ∀ j, 23 ≤ j → g2.proto_list j = g.proto_list j) := by
  have hv : ∀ p ∈ protos, 0 ∉ p ∧ p.length ≤ 255 := by decide
  have hsz : encodedSize protos = 23 := by decide
  have henc : npnEncoding protos =
      [6] ++ cstr "spdy/3" ++ [6] ++ cstr "spdy/2" ++ [8] ++ cstr "http/1.1" := by decide
  have hmem : ∀ m : Mem,
      readBuf (set_npn_prefs m protos) 0 23 =
        [6] ++ cstr "spdy/3" ++ [6] ++ cstr "spdy/2" ++ [8] ++ cstr "http/1.1" ∧
      ∀ j, 23 ≤ j → set_npn_prefs m protos j = m j := by
    intro m
    refine ⟨?_, ?_⟩
    · rw [← hsz, readBuf_set_npn_prefs m protos hv, henc]
    · intro j hj
      rw [set_npn_prefs_spec m protos hv j]
      have : (npnEncoding protos).length ≤ j := by rw [npnEncoding_length, hsz]; exact hj
      simp [List.getD, List.getElem?_eq_none this]
  refine ⟨hsz, rfl, hmem, ?_⟩
  intro cfg lib g g2 ctx h
  unfold create_ssl_context at h
  split at h
  · cases h
  · split at h
    · cases h
    · split at h
      · cases h
      · split at h
        · cases h
        · split at h
          · cases h
          · simp only [Option.some.injEq, Prod.mk.injEq] at h
            obtain ⟨_, rfl⟩ := h
            exact ⟨rfl, rfl, (hmem g.proto_list).1, (hmem g.proto_list).2⟩


theorem proto_list_exactly_filled_witness :
    (next_proto_cb (NextProto.mk 0 proto_list_size)).len = 23 ∧
    readBuf (set_npn_prefs (fun _ => 0) protos) 0 23 =
      [6, 115, 112, 100, 121, 47, 51, 6, 115, 112, 100, 121, 47, 50,
        8, 104, 116, 116, 112, 47, 49, 46, 49] :=
  have h := proto_list_exactly_filled.2.2.2
    { ciphers := none, private_key_file := "server.key", cert_file := "server.crt",
      verify_client := false }
    { ctx_new_ok := true, set_cipher_list := 1, use_PrivateKey_file := 1,
      use_certificate_chain_file := 1, check_private_key := 1 }
    { proto_list := fun _ => 0, next_proto := { first := 0, second := 0 } }
    { proto_list := set_npn_prefs (fun _ => 0) protos,
      next_proto := { first := 0, second := proto_list_size } }
    { cipher_list := none, verify_peer := false, next_protos_advertised := true }
    rfl
  ⟨h.2.1, h.2.2.1⟩

theorem peerIdentifiers_npnEncoding (ids : List (List Nat)) :
    peerIdentifiers (npnEncoding ids) = ids := by
  simp [peerIdentifiers, decode_npnEncoding]

/-- C8: for every peer buffer that shares an identifier with the local preference list,
the select hook returns, with status OK, the first entry of the local preference list
that the peer offers too; with local preference `[A, B]` and the peer offering the
encoding of `[B, A]` the result is `A`. -/
theorem select_next_proto_cb_local_order :
    (∀ (localPrefs : List (List Nat)) (inp : List Nat),
      (∃ p, p ∈ localPrefs ∧ p ∈ peerIdentifiers inp) →
      ∃ l1 p l2, localPrefs = l1 ++ p :: l2 ∧ p ∈ peerIdentifiers inp ∧
        (∀ q ∈ l1, q ∉ peerIdentifiers inp) ∧
        select_next_proto_cb (spdylay_select_next_protocol localPrefs) inp =
          { out := some p, ret := SSL_TLSEXT_ERR_OK }) ∧
    (∀ A B : List Nat,
      select_next_proto_cb (spdylay_select_next_protocol [A, B]) (npnEncoding [B, A]) =
        { out := some A, ret := SSL_TLSEXT_ERR_OK }) := by
  have main : ∀ (localPrefs : List (List Nat)) (inp : List Nat),
      (∃ p, p ∈ localPrefs ∧ p ∈ peerIdentifiers inp) →
      ∃ l1 p l2, localPrefs = l1 ++ p :: l2 ∧ p ∈ peerIdentifiers inp ∧
        (∀ q ∈ l1, q ∉ peerIdentifiers inp) ∧
        select_next_proto_cb (spdylay_select_next_protocol localPrefs) inp =
          { out := some p, ret := SSL_TLSEXT_ERR_OK } := by
    intro localPrefs inp hex
    cases hf : localPrefs.find? (fun p => decide (p ∈ peerIdentifiers inp)) with
    | none =>
      obtain ⟨p, hp1, hp2⟩ := hex
      rw [List.find?_eq_none] at hf
      exact absurd (by simpa using hp2) (hf p hp1)
    | some p =>
      obtain ⟨hp, l1, l2, hsplit, hbefore⟩ := List.find?_eq_some.1 hf
      refine ⟨l1, p, l2, hsplit, by simpa using hp, ?_, ?_⟩
      · intro q hq
        simpa using hbefore q hq
      · simp [select_next_proto_cb, spdylay_select_next_protocol, hf]
  refine ⟨main, ?_⟩
  intro A B
  obtain ⟨l1, p, l2, hsplit, hp, hbefore, hres⟩ := main [A, B] (npnEncoding [B, A])
    ⟨A, by simp, by simp [peerIdentifiers_npnEncoding]⟩
  rw [hres]
  cases l1 with
  | nil =>
    simp at hsplit
    rw [hsplit.1]
  | cons x xs =>
    simp at hsplit
    have := hbefore x (by simp)
    rw [← hsplit.1, peerIdentifiers_npnEncoding] at this
    simp at this

theorem select_next_proto_cb_local_order_witness :
    ∃ l1 p l2, [cstr "spdy/3", cstr "spdy/2"] = l1 ++ p :: l2 ∧
      p ∈ peerIdentifiers (npnEncoding [cstr "spdy/2", cstr "spdy/3"]) ∧
      (∀ q ∈ l1, q ∉ peerIdentifiers (npnEncoding [cstr "spdy/2", cstr "spdy/3"])) ∧
      select_next_proto_cb (spdylay_select_next_protocol [cstr "spdy/3", cstr "spdy/2"])
          (npnEncoding [cstr "spdy/2", cstr "spdy/3"]) =
        { out := some p, ret := SSL_TLSEXT_ERR_OK } :=
  select_next_proto_cb_local_order.1 [cstr "spdy/3", cstr "spdy/2"]
    (npnEncoding [cstr "spdy/2", cstr "spdy/3"]) ⟨cstr "spdy/3", by decide, by decide⟩

/-- C9: protocol selection never fails. Whatever the library routine does, the select
hook returns OK, and on a non-positive library result it leaves the six bytes `spdy/3`;
with the routine as the spec describes it, every peer buffer (empty and malformed ones
too) leaves some identifier in the output, which is `spdy/3` whenever the peer list and
the local list share no identifier. -/
theorem select_next_proto_cb_never_fails :
    (∀ (lib : List Nat → Int × Option (List Nat)) (inp : List Nat),
      (select_next_proto_cb lib inp).ret = SSL_TLSEXT_ERR_OK ∧
      ((lib inp).1 ≤ 0 →
        (select_next_proto_cb lib inp).out = some [115, 112, 100, 121, 47, 51])) ∧
    (∀ (localPrefs : List (List Nat)) (inp : List Nat),
      (select_next_proto_cb (spdylay_select_next_protocol localPrefs) inp).ret =
        SSL_TLSEXT_ERR_OK ∧
      ∃ id, (select_next_proto_cb (spdylay_select_next_protocol localPrefs) inp).out = some id ∧
        ((∀ p ∈ localPrefs, p ∉ peerIdentifiers inp) →
          (spdylay_select_next_protocol localPrefs inp).1 ≤ 0 ∧ id = cstr "spdy/3" ∧
            id.length = 6)) := by
  have hdef : (cstr "spdy/3").take 6 = [115, 112, 100, 121, 47, 51] := by decide
  have hgen : ∀ (lib : List Nat → Int × Option (List Nat)) (inp : List Nat),
      (select_next_proto_cb lib inp).ret = SSL_TLSEXT_ERR_OK ∧
      ((lib inp).1 ≤ 0 →
        (select_next_proto_cb lib inp).out = some [115, 112, 100, 121, 47, 51]) := by
    intro lib inp
    unfold select_next_proto_cb
    by_cases h : (lib inp).1 ≤ 0
    · simp [h, hdef]
    · simp [h]
  refine ⟨hgen, ?_⟩
  intro localPrefs inp
  refine ⟨(hgen _ inp).1, ?_⟩
  cases hf : localPrefs.find? (fun p => decide (p ∈ peerIdentifiers inp)) with
  | none =>
    have hrv : (spdylay_select_next_protocol localPrefs inp).1 ≤ 0 := by
      simp [spdylay_select_next_protocol, hf]
    refine ⟨[115, 112, 100, 121, 47, 51], (hgen _ inp).2 hrv, fun _ => ⟨hrv, by decide, rfl⟩⟩
  | some p =>
    refine ⟨p, by simp [select_next_proto_cb, spdylay_select_next_protocol, hf], ?_⟩
    intro hno
    obtain ⟨hp, l1, l2, hsplit, _⟩ := List.find?_eq_some.1 hf
    have hmem : p ∈ localPrefs := by rw [hsplit]; simp
    exact absurd (by simpa using hp) (hno p hmem)

theorem select_next_proto_cb_never_fails_witness :
    (select_next_proto_cb (spdylay_select_next_protocol [cstr "spdy/3", cstr "spdy/2"])
      [9, 104]).out = some [115, 112, 100, 121, 47, 51] :=
  (select_next_proto_cb_never_fails.1 (spdylay_select_next_protocol [cstr "spdy/3", cstr "spdy/2"])
    [9, 104]).2 (by decide)

/-- C10: with the results of the TLS library calls taken as inputs, `create_ssl_context`
returns a context only if the private-key load, the certificate-chain load and the
key/certificate check each reported 1; if any of them reported otherwise construction
ends in `DIE()` and no context is returned, whatever the configuration. -/
theorem create_ssl_context_requires_key_and_cert :
    (∀ (cfg : Config) (lib : TlsLib) (g : Globals),
      (create_ssl_context cfg lib g).isSome = true →
      lib.use_PrivateKey_file = 1 ∧ lib.use_certificate_chain_file = 1 ∧
        lib.check_private_key = 1) ∧
    (∀ (cfg : Config) (lib : TlsLib) (g : Globals),
      (lib.use_PrivateKey_file ≠ 1 ∨ lib.use_certificate_chain_file ≠ 1 ∨
        lib.check_private_key ≠ 1) →
      create_ssl_context cfg lib g = none) := by
  have h1 : ∀ (cfg : Config) (lib : TlsLib) (g : Globals),
      (create_ssl_context cfg lib g).isSome = true →
      lib.use_PrivateKey_file = 1 ∧ lib.use_certificate_chain_file = 1 ∧
        lib.check_private_key = 1 := by
    intro cfg lib g h
    unfold create_ssl_context at h
    split at h
    · cases h
    · split at h
      · cases h
      · split at h
        · cases h
        · split at h
          · cases h
          · split at h
            · cases h
            · rename_i _ _ hpk hcert hchk
              simp only [bne_iff_ne, ne_eq, Decidable.not_not] at hpk hcert hchk
              exact ⟨hpk, hcert, hchk⟩
  refine ⟨h1, ?_⟩
  intro cfg lib g hbad
  cases hr : create_ssl_context cfg lib g with
  | none => rfl
  | some r =>
    have := h1 cfg lib g (by rw [hr]; rfl)
    rcases hbad with hb | hb | hb
    · exact absurd this.1 hb
    · exact absurd this.2.1 hb
    · exact absurd this.2.2 hb

theorem create_ssl_context_requires_key_and_cert_witness :
    (create_ssl_context
      { ciphers := none, private_key_file := "server.key", cert_file := "server.crt",
        verify_client := false }
      { ctx_new_ok := true, set_cipher_list := 0, use_PrivateKey_file := 1,
        use_certificate_chain_file := 1, check_private_key := 1 }
      { proto_list := fun _ => 0, next_proto := { first := 0, second := 0 } }).isSome = true ∧
    create_ssl_context
      { ciphers := some "HIGH", private_key_file := "server.key", cert_file := "server.crt",
        verify_client := true }
      { ctx_new_ok := true, set_cipher_list := 1, use_PrivateKey_file := 1,
        use_certificate_chain_file := 1, check_private_key := 0 }
      { proto_list := fun _ => 0, next_proto := { first := 0, second := 0 } } = none :=
  ⟨rfl, create_ssl_context_requires_key_and_cert.2 _ _ _ (Or.inr (Or.inr (by decide)))⟩

end shrpx
